import Mathlib

/-!
Verification of the Bitcoin-Miner simulation (`src/Main.py`) against its
natural-language specification.

The Python program is shallowly embedded below:

* a Python `dict` used as a block template is an association list
  `Dict := List (String × Value)`; `block_data['k'] = v` is `setKey`,
  which (like CPython) updates the value in place when the key exists and
  appends otherwise;
* `json.dumps(data, sort_keys=True)` is `to_string`, which sorts the
  entries by key and renders them with the `", "` / `": "` separators
  `json.dumps` uses by default;
* `hashlib.sha256(...).hexdigest()` and `int(hex_string, 16)` are abstract
  parameters `sha : String → String` and `hexVal : String → Nat`: the
  search logic is proved for every choice of digest function;
* the worker pool of `mine` is the order-preserving `List.map` of
  `mine_nonce` over the argument list built on line 83 (`pool.map`
  preserves argument order, and `for result in results: if result:` takes
  the first non-`None` entry);
* the module-level mutable `CHAIN` / `REWARD` state is passed explicitly
  (chain as a `List MinedBlock`, the reward schedule as a recursion on the
  number of appended blocks);
* the floats `mining_time`, `REWARD` are modelled as rationals;
* for the frame claim about `block_data.copy()` the mutation of dicts is
  additionally modelled explicitly on a heap `Heap := List Dict` of
  dict cells addressed by index.
-/

/-- JSON-serializable values appearing in a block dictionary: the program
only ever stores ints and strings in the fields that are hashed. -/
inductive Value where
  | nat : Nat → Value
  | str : String → Value
deriving DecidableEq

/-- A Python dict as an association list (insertion order preserved). -/
abbrev Dict := List (String × Value)

/-- Assignment `d[k] = v` on a Python dict: replaces the value of an
existing key in place, otherwise appends the new entry. -/
def setKey : Dict → String → Value → Dict
  | [], k, v => [(k, v)]
  | (k', v') :: rest, k, v =>
    if k' = k then (k, v) :: rest else (k', v') :: setKey rest k v

/-- Lookup `d[k]` on a Python dict. -/
def getVal : Dict → String → Option Value
  | [], _ => none
  | (k', v') :: rest, k => if k' = k then some v' else getVal rest k

/-- Key comparison used by `json.dumps(..., sort_keys=True)`. -/
def keyLE (a b : String × Value) : Prop := a.1 ≤ b.1

instance : DecidableRel keyLE := fun a b =>
  inferInstanceAs (Decidable (a.1 ≤ b.1))

instance : IsTotal (String × Value) keyLE := ⟨fun a b => le_total a.1 b.1⟩

instance : IsTrans (String × Value) keyLE :=
  ⟨fun _ _ _ h1 h2 => le_trans h1 h2⟩

/-- Strict version of the key order, used to show the sorted form is
unique when the keys are distinct. -/
def keyLT (a b : String × Value) : Prop := a.1 < b.1

instance : IsAntisymm (String × Value) keyLT :=
  ⟨fun _ _ h1 h2 => absurd (lt_trans h1 h2) (lt_irrefl _)⟩

/-- The deterministic key ordering applied by `sort_keys=True`. -/
def sortByKey (d : Dict) : Dict := List.insertionSort keyLE d

/-- Rendering of a single JSON value (ints in decimal, strings quoted),
as `json.dumps` renders the values this program stores. -/
def serializeValue : Value → String
  | .nat n => toString n
  | .str s => "\"" ++ s ++ "\""

/-- Rendering of one `"key": value` entry. -/
def serializeEntry (e : String × Value) : String :=
  "\"" ++ e.1 ++ "\": " ++ serializeValue e.2

/-- `to_string` (Main.py line 40): `json.dumps(data, sort_keys=True)` —
entries sorted by key, joined with `", "`, wrapped in braces. -/
def to_string (d : Dict) : String :=
  "\x7b" ++ String.intercalate ", " ((sortByKey d).map serializeEntry) ++ "\x7d"

/-- `DIFFICULTIES` (Main.py line 15): the named difficulty tiers. -/
def DIFFICULTIES : List (String × Nat) :=
  [("Easy", 2), ("Medium", 3), ("Hard", 4)]

/-- The difficulty-bit values reachable through the `DIFFICULTIES` table. -/
def supportedBits : List Nat := DIFFICULTIES.map Prod.snd

/-- `calculate_target` (Main.py line 46): `2 ** (256 - difficulty)`. -/
def calculate_target (difficulty : Nat) : Nat := 2 ^ (256 - difficulty)

/-- `max_nonce = 2 ** 32` (Main.py line 79). -/
def MAX_NONCE : Nat := 2 ^ 32

/-- `nonce_step = max_nonce // num_workers` (Main.py line 80). -/
def nonce_step (w : Nat) : Nat := MAX_NONCE / w

/-- The nonce sub-ranges handed to the workers (Main.py line 83):
worker `i` receives `[i * nonce_step, (i+1) * nonce_step)`. -/
def workerRanges (w : Nat) : List (Nat × Nat) :=
  (List.range w).map fun i => (i * nonce_step w, (i + 1) * nonce_step w)

/-- Whether nonce `n` is covered by some worker's sub-range. -/
def inRanges (w n : Nat) : Bool :=
  (workerRanges w).any fun r => decide (r.1 ≤ n ∧ n < r.2)

theorem getVal_setKey_self (d : Dict) (k : String) (v : Value) :
    getVal (setKey d k v) k = some v := by
  induction d with
  | nil => simp [setKey, getVal]
  | cons e rest ih =>
    by_cases h : e.1 = k
    · simp [setKey, h, getVal]
    · simp [setKey, h, getVal, ih]

theorem getVal_setKey_ne (d : Dict) (k k' : String) (v : Value)
    (hkk : k ≠ k') : getVal (setKey d k v) k' = getVal d k' := by
  induction d with
  | nil => simp [setKey, getVal, hkk]
  | cons e rest ih =>
    by_cases h : e.1 = k
    · simp [setKey, h, getVal, hkk]
    · simp [setKey, h, getVal, ih]

theorem setKey_setKey (d : Dict) (k : String) (v v' : Value) :
    setKey (setKey d k v) k v' = setKey d k v' := by
  induction d with
  | nil => simp [setKey]
  | cons e rest ih =>
    by_cases h : e.1 = k
    · simp [setKey, h]
    · simp [setKey, h, ih]

/-- Whether the hash of `block` with its nonce field set to `n` beats the
target: `int(SHA256(to_string(block_data)), 16) < target` (Main.py line 58),
with the nonce written into the dict first (line 55). -/
def acceptedAt (sha : String → String) (hexVal : String → Nat)
    (target : Nat) (block : Dict) (n : Nat) : Bool :=
  decide (hexVal (sha (to_string (setKey block "nonce" (.nat n)))) < target)

/-- The dict returned by a successful trial at nonce `n`: the block with
`nonce` set to `n` and `hash` set to the hex digest (Main.py lines 55-60). -/
def minedDict (sha : String → String) (block : Dict) (n : Nat) : Dict :=
  setKey (setKey block "nonce" (.nat n)) "hash"
    (.str (sha (to_string (setKey block "nonce" (.nat n)))))

/-- The loop body of `mine_nonce` (Main.py lines 54-61): starting from
nonce `lo`, try `fuel` consecutive nonces, writing each trial nonce into
the (worker-local) dict, and return the mined dict at the first accepted
nonce, else `none`. -/
def scanGo (sha : String → String) (hexVal : String → Nat) (target : Nat) :
    Dict → Nat → Nat → Option Dict
  | _, _, 0 => none
  | block, lo, fuel + 1 =>
    let b := setKey block "nonce" (.nat lo)
    let newHash := sha (to_string b)
    if hexVal newHash < target then some (setKey b "hash" (.str newHash))
    else scanGo sha hexVal target b (lo + 1) fuel

/-- `mine_nonce` (Main.py lines 52-61): scan `range(nonce_start, nonce_end)`
in increasing order. -/
def mine_nonce (sha : String → String) (hexVal : String → Nat)
    (block : Dict) (nonce_start nonce_end target : Nat) : Option Dict :=
  scanGo sha hexVal target block nonce_start (nonce_end - nonce_start)

/-- The per-worker argument tuples built by `mine` (Main.py line 83):
`(block_data.copy(), i * nonce_step, (i+1) * nonce_step, target, i)`.
`dict.copy()` is the identity on dict values, so the copy is implicit here;
the heap model below makes it explicit. -/
def mineArgs (block : Dict) (difficulty w : Nat) :
    List (Dict × Nat × Nat × Nat × Nat) :=
  (List.range w).map fun i =>
    (block, i * nonce_step w, (i + 1) * nonce_step w, calculate_target difficulty, i)

/-- The result list of `pool.map(mine_nonce, args)` (Main.py line 85):
`pool.map` preserves argument order. -/
def workerResults (sha : String → String) (hexVal : String → Nat)
    (block : Dict) (difficulty w : Nat) : List (Option Dict) :=
  (mineArgs block difficulty w).map fun a =>
    mine_nonce sha hexVal a.1 a.2.1 a.2.2.1 a.2.2.2.1

/-- The result-selection loop of `mine` (Main.py lines 95-100): return the
first non-`None` worker result, else `None`.  (Worker results are dicts
with at least a `nonce` key, hence truthy, so Python's `if result:` test
coincides with `is not None`.) -/
def firstSome : List (Option Dict) → Option Dict
  | [] => none
  | some b :: _ => some b
  | none :: rest => firstSome rest

/-- `mine` (Main.py lines 63-100), with the wall-clock statistics dropped:
partition the nonce space, run the workers, return the first hit. -/
def mine (sha : String → String) (hexVal : String → Nat)
    (block : Dict) (difficulty w : Nat) : Option Dict :=
  firstSome (workerResults sha hexVal block difficulty w)

/-- A mined block as recorded on the chain (spec §6: `block_number,
transactions, previous_hash, nonce, hash, mining_time, reward`); the float
fields are modelled as rationals. -/
structure MinedBlock where
  block_number : Nat
  transactions : String
  previous_hash : String
  nonce : Nat
  hash : String
  mining_time : ℚ
  reward : ℚ
deriving DecidableEq

/-- The genesis sentinel `'0' * 64` (Main.py line 179). -/
def GENESIS_SENTINEL : String :=
  "0000000000000000000000000000000000000000000000000000000000000000"

/-- `add_block_to_chain` (Main.py lines 142-147): `CHAIN.append(block)`,
with the global `CHAIN` passed explicitly. -/
def add_block_to_chain (chain : List MinedBlock) (block : MinedBlock) :
    List MinedBlock :=
  chain ++ [block]

/-- The `previous_hash` the caller `start_mining` puts into a new template
(Main.py line 179): the tail's hash, or the genesis sentinel. -/
def callerPreviousHash (chain : List MinedBlock) : String :=
  match chain.getLast? with
  | some b => b.hash
  | none => GENESIS_SENTINEL

/-- `TARGET_TIME = 10 * 60` (Main.py line 25). -/
def TARGET_TIME : ℚ := 10 * 60

/-- Python's `CHAIN[-10:]` slice generalised: the last `n` elements. -/
def lastN (n : Nat) (l : List MinedBlock) : List MinedBlock :=
  l.drop (l.length - n)

/-- The mean mining time of the last 10 blocks (Main.py line 154):
`sum(block['mining_time'] for block in CHAIN[-10:]) / 10`. -/
def recentAvg (chain : List MinedBlock) : ℚ :=
  (((lastN 10 chain).map fun b => b.mining_time).sum) / 10

/-- `retarget_difficulty` (Main.py lines 149-159), with the global `CHAIN`
passed explicitly: at batch boundaries compare the recent mean mining time
with `TARGET_TIME`; `1` means increase, `-1` decrease, `0` unchanged. -/
def retarget_difficulty (chain : List MinedBlock) : Int :=
  if 1 < chain.length ∧ chain.length % 10 = 0 then
    if recentAvg chain < TARGET_TIME then 1
    else if TARGET_TIME < recentAvg chain then -1
    else 0
  else 0

/-- `HALVING_INTERVAL = 210000` (Main.py line 24). -/
def HALVING_INTERVAL : Nat := 210000

/-- `REWARD = 50` (Main.py line 23): the initial reward. -/
def REWARD0 : ℚ := 50

/-- The reward-schedule state after `n` successful appends, following
`start_mining` (Main.py lines 205-209): the block is appended first, and
then, when the new chain length is a multiple of `HALVING_INTERVAL`, the
global `REWARD` is halved. -/
def rewardAfter : Nat → ℚ
  | 0 => REWARD0
  | n + 1 =>
    if (n + 1) % HALVING_INTERVAL = 0 then rewardAfter n / 2
    else rewardAfter n

/-- The reward credited to the `k`-th appended block (1-indexed):
`mined_block['reward'] = REWARD` (Main.py line 201) reads the schedule
state *before* the append, i.e. after `k - 1` earlier appends. -/
def creditedReward (k : Nat) : ℚ := rewardAfter (k - 1)

/-- A heap of dict cells, addressed by index, making Python's reference
semantics for dicts explicit for the frame claim about `mine`. -/
abbrev Heap := List Dict

/-- Dereference a dict cell. -/
def readH (h : Heap) (r : Nat) : Dict := h.getD r []

/-- Mutate a dict cell in place. -/
def writeH (h : Heap) (r : Nat) (d : Dict) : Heap := h.set r d

/-- `mine_nonce`'s loop under explicit mutation (Main.py lines 54-61):
each iteration writes the trial nonce into the dict cell `r`; on success
the hash is also written into `r` and the cell's contents are returned. -/
def scanGoH (sha : String → String) (hexVal : String → Nat) (target : Nat) :
    Heap → Nat → Nat → Nat → Heap × Option Dict
  | h, _, _, 0 => (h, none)
  | h, r, lo, fuel + 1 =>
    let h1 := writeH h r (setKey (readH h r) "nonce" (.nat lo))
    let newHash := sha (to_string (readH h1 r))
    if hexVal newHash < target then
      let h2 := writeH h1 r (setKey (readH h1 r) "hash" (.str newHash))
      (h2, some (readH h2 r))
    else scanGoH sha hexVal target h1 r (lo + 1) fuel

/-- The worker fan-out of `mine` under explicit mutation (Main.py
lines 82-85): for each worker index, `block_data.copy()` allocates a fresh
dict cell holding the caller's current contents, and the worker's scan
mutates only that fresh cell. -/
def runWorkersH (sha : String → String) (hexVal : String → Nat)
    (target step blockRef : Nat) :
    List Nat → Heap → Heap × List (Option Dict)
  | [], h => (h, [])
  | i :: rest, h =>
    let copyRef := h.length
    let h1 := h ++ [readH h blockRef]
    let p := scanGoH sha hexVal target h1 copyRef (i * step)
      ((i + 1) * step - i * step)
    let q := runWorkersH sha hexVal target step blockRef rest p.1
    (q.1, p.2 :: q.2)

/-- `mine` under explicit mutation (Main.py lines 63-100): the caller's
template lives in cell `blockRef`; each worker gets its own copy. -/
def mineH (sha : String → String) (hexVal : String → Nat)
    (h : Heap) (blockRef difficulty w : Nat) : Heap × List (Option Dict) :=
  runWorkersH sha hexVal (calculate_target difficulty) (nonce_step w)
    blockRef (List.range w) h

theorem workerRanges_get? (w i : Nat) (hi : i < w) :
    (workerRanges w).get? i =
      some (i * nonce_step w, (i + 1) * nonce_step w) := by
  rw [workerRanges, List.get?_map, List.get?_range hi]
  rfl

theorem inRanges_iff (w n : Nat) :
    inRanges w n = true ↔
      ∃ i, i < w ∧ i * nonce_step w ≤ n ∧ n < (i + 1) * nonce_step w := by
  simp only [inRanges, List.any_eq_true, workerRanges, List.mem_map,
    List.mem_range, decide_eq_true_eq]
  constructor
  · rintro ⟨r, ⟨i, hi, rfl⟩, h1, h2⟩
    exact ⟨i, hi, h1, h2⟩
  · rintro ⟨i, hi, h1, h2⟩
    exact ⟨_, ⟨i, hi, rfl⟩, h1, h2⟩

theorem mem_range_imp_div (step i n : Nat) (h1 : i * step ≤ n)
    (h2 : n < (i + 1) * step) : 0 < step ∧ n / step = i := by
  have hstep : 0 < step := by
    rcases Nat.eq_zero_or_pos step with h | h
    · subst h; omega
    · exact h
  refine ⟨hstep, ?_⟩
  have hlo : i ≤ n / step := (Nat.le_div_iff_mul_le hstep).2 h1
  have hhi : n / step < i + 1 := (Nat.div_lt_iff_lt_mul hstep).2 (by
    calc n < (i + 1) * step := h2
    _ = step * (i + 1) := Nat.mul_comm _ _
    _ ≤ (i + 1) * step := le_of_eq (Nat.mul_comm _ _))
  omega

theorem inRanges_true_iff_lt (w n : Nat) :
    inRanges w n = true ↔ n < w * nonce_step w := by
  rw [inRanges_iff]
  constructor
  · rintro ⟨i, hi, _, h2⟩
    calc n < (i + 1) * nonce_step w := h2
    _ ≤ w * nonce_step w := Nat.mul_le_mul_right _ hi
  · intro hn
    have hstep : 0 < nonce_step w := by
      rcases Nat.eq_zero_or_pos (nonce_step w) with h | h
      · rw [h, Nat.mul_zero] at hn; exact absurd hn (Nat.not_lt_zero n)
      · exact h
    refine ⟨n / nonce_step w, ?_, Nat.div_mul_le_self n _, ?_⟩
    · exact (Nat.div_lt_iff_lt_mul hstep).2 hn
    · calc n < n / nonce_step w * nonce_step w + nonce_step w :=
          Nat.lt_div_mul_add hstep
      _ = (n / nonce_step w + 1) * nonce_step w := by ring

theorem scanGo_setKey_nonce (sha : String → String) (hexVal : String → Nat)
    (target : Nat) :
    ∀ (fuel lo : Nat) (block : Dict) (v : Value),
      scanGo sha hexVal target (setKey block "nonce" v) lo fuel =
        scanGo sha hexVal target block lo fuel := by
  intro fuel
  induction fuel with
  | zero => intro lo block v; rfl
  | succ n _ => intro lo block v; simp only [scanGo, setKey_setKey]

theorem scanGo_some (sha : String → String) (hexVal : String → Nat)
    (target : Nat) :
    ∀ (fuel lo : Nat) (block bout : Dict),
      scanGo sha hexVal target block lo fuel = some bout →
      ∃ n, lo ≤ n ∧ n < lo + fuel ∧
        acceptedAt sha hexVal target block n = true ∧
        (∀ m, lo ≤ m → m < n →
          acceptedAt sha hexVal target block m = false) ∧
        bout = minedDict sha block n := by
  intro fuel
  induction fuel with
  | zero => intro lo block bout h; exact absurd h (by simp [scanGo])
  | succ f ih =>
    intro lo block bout h
    simp only [scanGo] at h
    by_cases hc :
        hexVal (sha (to_string (setKey block "nonce" (.nat lo)))) < target
    · rw [if_pos hc] at h
      refine ⟨lo, le_refl lo, by omega, ?_, ?_, ?_⟩
      · exact decide_eq_true hc
      · intro m hm1 hm2; omega
      · simpa [minedDict] using h.symm
    · rw [if_neg hc] at h
      rw [scanGo_setKey_nonce] at h
      obtain ⟨n, hn1, hn2, hn3, hn4, hn5⟩ := ih (lo + 1) block bout h
      refine ⟨n, by omega, by omega, hn3, ?_, hn5⟩
      intro m hm1 hm2
      rcases Nat.eq_or_lt_of_le hm1 with hm | hm
      · rw [← hm]; exact decide_eq_false hc
      · exact hn4 m hm hm2

theorem scanGo_none_iff (sha : String → String) (hexVal : String → Nat)
    (target : Nat) :
    ∀ (fuel lo : Nat) (block : Dict),
      scanGo sha hexVal target block lo fuel = none ↔
      ∀ m, lo ≤ m → m < lo + fuel →
        acceptedAt sha hexVal target block m = false := by
  intro fuel
  induction fuel with
  | zero =>
    intro lo block
    constructor
    · intro _ m hm1 hm2; omega
    · intro _; rfl
  | succ f ih =>
    intro lo block
    simp only [scanGo]
    by_cases hc :
        hexVal (sha (to_string (setKey block "nonce" (.nat lo)))) < target
    · rw [if_pos hc]
      constructor
      · intro h; exact absurd h (by simp)
      · intro h
        have := h lo (le_refl lo) (by omega)
        rw [acceptedAt, decide_eq_true hc] at this
        exact absurd this (by simp)
    · rw [if_neg hc, scanGo_setKey_nonce]
      rw [ih (lo + 1) block]
      constructor
      · intro h m hm1 hm2
        rcases Nat.eq_or_lt_of_le hm1 with hm | hm
        · rw [← hm]; exact decide_eq_false hc
        · exact h m hm (by omega)
      · intro h m hm1 hm2
        exact h m (by omega) (by omega)

theorem firstSome_eq_none_iff :
    ∀ l : List (Option Dict), firstSome l = none ↔ ∀ x ∈ l, x = none := by
  intro l
  induction l with
  | nil => simp [firstSome]
  | cons x rest ih =>
    cases x with
    | some b => simp [firstSome]
    | none => simp [firstSome, ih]

theorem firstSome_eq_some :
    ∀ (l : List (Option Dict)) (b : Dict), firstSome l = some b →
      ∃ i, l.get? i = some (some b) ∧
        ∀ j, j < i → l.get? j = some none := by
  intro l
  induction l with
  | nil => intro b h; exact absurd h (by simp [firstSome])
  | cons x rest ih =>
    intro b h
    cases x with
    | some b' =>
      refine ⟨0, ?_, ?_⟩
      · simpa [firstSome] using h
      · intro j hj; omega
    | none =>
      obtain ⟨i, hi1, hi2⟩ := ih b (by simpa [firstSome] using h)
      refine ⟨i + 1, by simpa using hi1, ?_⟩
      intro j hj
      cases j with
      | zero => rfl
      | succ j' => simpa using hi2 j' (by omega)

theorem workerResults_get? (sha : String → String) (hexVal : String → Nat)
    (block : Dict) (difficulty w i : Nat) (hi : i < w) :
    (workerResults sha hexVal block difficulty w).get? i =
      some (mine_nonce sha hexVal block (i * nonce_step w)
        ((i + 1) * nonce_step w) (calculate_target difficulty)) := by
  rw [workerResults, mineArgs, List.map_map, List.get?_map,
    List.get?_range hi]
  rfl

theorem workerResults_get?_none (sha : String → String)
    (hexVal : String → Nat) (block : Dict) (difficulty w i : Nat)
    (hi : w ≤ i) :
    (workerResults sha hexVal block difficulty w).get? i = none := by
  rw [workerResults, mineArgs, List.map_map, List.get?_map]
  rw [List.get?_eq_none.2 (by simpa using hi)]
  rfl

theorem mine_nonce_some (sha : String → String) (hexVal : String → Nat)
    (block bout : Dict) (lo hi target : Nat) (hlohi : lo ≤ hi)
    (h : mine_nonce sha hexVal block lo hi target = some bout) :
    ∃ n, lo ≤ n ∧ n < hi ∧ acceptedAt sha hexVal target block n = true ∧
      (∀ m, lo ≤ m → m < n →
        acceptedAt sha hexVal target block m = false) ∧
      bout = minedDict sha block n := by
  obtain ⟨n, h1, h2, h3, h4, h5⟩ :=
    scanGo_some sha hexVal target (hi - lo) lo block bout h
  exact ⟨n, h1, by omega, h3, h4, h5⟩

theorem mine_nonce_none_iff (sha : String → String) (hexVal : String → Nat)
    (block : Dict) (lo hi target : Nat) (hlohi : lo ≤ hi) :
    mine_nonce sha hexVal block lo hi target = none ↔
      ∀ m, lo ≤ m → m < hi →
        acceptedAt sha hexVal target block m = false := by
  rw [mine_nonce, scanGo_none_iff]
  constructor
  · intro h m hm1 hm2; exact h m hm1 (by omega)
  · intro h m hm1 hm2; exact h m hm1 (by omega)

/-- Claim C1, counterexample: with `worker_count = 3` the partition is not
exhaustive — the final range does not absorb the remainder of
`2^32 // 3`, so nonce `2^32 - 1 = 4294967295` is covered by no worker's
sub-range even though it lies in `[0, 2^32)`. -/
theorem claim_C1_counterexample :
    inRanges 3 4294967295 = false ∧ 4294967295 < MAX_NONCE := by
  constructor
  · rfl
  · decide

/-- Claim C1 (amended): for every `worker_count ≥ 1` the sub-ranges handed
to the workers are contiguous and pairwise disjoint, and their union is
`[0, worker_count * (2^32 / worker_count))`; this equals `[0, 2^32)`
exactly when `worker_count` divides `2^32` (nothing absorbs the remainder
otherwise). -/
theorem claim_C1 (w : Nat) (_hw : 1 ≤ w) :
    (∀ i, i < w → (workerRanges w).get? i =
        some (i * nonce_step w, (i + 1) * nonce_step w))
  ∧ (∀ i, i + 1 < w → ∃ a b c, (workerRanges w).get? i = some (a, b) ∧
        (workerRanges w).get? (i + 1) = some (b, c))
  ∧ (∀ n, inRanges w n = true ↔ n < w * nonce_step w)
  ∧ (∀ i j n, i < w → j < w →
        i * nonce_step w ≤ n → n < (i + 1) * nonce_step w →
        j * nonce_step w ≤ n → n < (j + 1) * nonce_step w → i = j)
  ∧ (w * nonce_step w = MAX_NONCE ↔ w ∣ MAX_NONCE) := by
  refine ⟨fun i hi => workerRanges_get? w i hi, ?_, inRanges_true_iff_lt w,
    ?_, ?_⟩
  · intro i hi
    exact ⟨i * nonce_step w, (i + 1) * nonce_step w,
      (i + 1 + 1) * nonce_step w,
      workerRanges_get? w i (by omega), workerRanges_get? w (i + 1) hi⟩
  · intro i j n _ _ h1 h2 h3 h4
    obtain ⟨_, hdi⟩ := mem_range_imp_div (nonce_step w) i n h1 h2
    obtain ⟨_, hdj⟩ := mem_range_imp_div (nonce_step w) j n h3 h4
    omega
  · constructor
    · intro h; exact ⟨nonce_step w, h.symm⟩
    · intro h; exact Nat.mul_div_cancel' h

theorem claim_C1_witness :
    (workerRanges 3).get? 1 = some (1 * nonce_step 3, (1 + 1) * nonce_step 3) :=
  (claim_C1 3 (by decide)).1 1 (by decide)

/-- Claim C2, counterexample: `add_block_to_chain` performs no linkage
check — a block whose `previous_hash` is not the 64-zero genesis sentinel
is appended to the empty chain anyway, so the append does not fail and the
chain does not stay unchanged. -/
theorem claim_C2_counterexample :
    (MinedBlock.mk 1 "tx" "ffff" 0 "abcd" 1 50).previous_hash ≠
      GENESIS_SENTINEL ∧
    add_block_to_chain [] (MinedBlock.mk 1 "tx" "ffff" 0 "abcd" 1 50) =
      [MinedBlock.mk 1 "tx" "ffff" 0 "abcd" 1 50] := by
  constructor
  · decide
  · rfl

/-- Claim C2 (amended): `add_block_to_chain` validates nothing: for every
chain state and every block — whether or not its `previous_hash` matches
the tail's hash or the genesis sentinel — the append succeeds, the chain
length grows by exactly 1, the existing entries are unchanged, and the new
block becomes the tail.  Linkage is instead maintained by the caller
`start_mining`, which builds each template's `previous_hash` from the
current tail (`callerPreviousHash`). -/
theorem claim_C2 (chain : List MinedBlock) (b : MinedBlock) :
    (add_block_to_chain chain b).length = chain.length + 1 ∧
    (add_block_to_chain chain b).take chain.length = chain ∧
    (add_block_to_chain chain b).getLast? = some b ∧
    callerPreviousHash (add_block_to_chain chain b) = b.hash := by
  refine ⟨by simp [add_block_to_chain], ?_, ?_, ?_⟩
  · rw [add_block_to_chain, List.take_left]
  · rw [add_block_to_chain, List.getLast?_concat]
  · rw [callerPreviousHash, add_block_to_chain, List.getLast?_concat]

/-- Claim C3, counterexample: a difficulty of 256 maps to the degenerate
target `2^0 = 1`, yet `mine` does not reject it: the worker-argument list
is still fully built (a worker is launched), and with a digest function of
integer value 0 the search even returns a mined block — so the search is
neither rejected synchronously nor prevented from producing a block. -/
theorem claim_C3_counterexample :
    (mineArgs [("block_number", Value.nat 1)] 256 1).length = 1 ∧
    (mine (fun s => s) (fun _ => 0)
      [("block_number", Value.nat 1)] 256 1).isSome = true := by
  constructor
  · rfl
  · rfl

/-- Claim C3 (amended): `mine` performs no difficulty validation at all:
for every requested difficulty — including every difficulty whose target
is degenerate (`difficulty ≥ 256`) — it builds the complete worker-argument
list of length `worker_count`, handing each worker its sub-range and the
computed target, before any result is known. -/
theorem claim_C3 (block : Dict) (difficulty w : Nat) :
    (mineArgs block difficulty w).length = w ∧
    ∀ i, i < w → (mineArgs block difficulty w).get? i =
      some (block, i * nonce_step w, (i + 1) * nonce_step w,
        calculate_target difficulty, i) := by
  constructor
  · simp [mineArgs]
  · intro i hi
    rw [mineArgs, List.get?_map, List.get?_range hi]
    rfl

theorem claim_C3_witness :
    (mineArgs [] 300 2).get? 1 = some ([], 1 * nonce_step 2,
      (1 + 1) * nonce_step 2, calculate_target 300, 1) :=
  (claim_C3 [] 300 2).2 1 (by decide)

/-- Claim C7: for every difficulty value in the supported set (the values
of the `DIFFICULTIES` table), the computed target equals
`2^(256 - difficulty_bits)`, and the target is strictly decreasing as the
difficulty bits increase. -/
theorem claim_C7 :
    (∀ d, d ∈ supportedBits → calculate_target d = 2 ^ (256 - d))
  ∧ (∀ d1, d1 ∈ supportedBits → ∀ d2, d2 ∈ supportedBits →
      d1 < d2 → calculate_target d2 < calculate_target d1) := by
  constructor
  · intro d _; rfl
  · intro d1 h1 d2 h2 hlt
    have h1' : d1 = 2 ∨ d1 = 3 ∨ d1 = 4 := by
      simpa [supportedBits, DIFFICULTIES] using h1
    have h2' : d2 = 2 ∨ d2 = 3 ∨ d2 = 4 := by
      simpa [supportedBits, DIFFICULTIES] using h2
    rcases h1' with rfl | rfl | rfl <;> rcases h2' with rfl | rfl | rfl <;>
      first
      | omega
      | · rw [calculate_target, calculate_target]
          exact Nat.pow_lt_pow_right (by omega) (by omega)

theorem claim_C7_witness : calculate_target 3 < calculate_target 2 :=
  claim_C7.2 2 (by decide) 3 (by decide) (by decide)

theorem rewardAfter_closed (n : Nat) :
    rewardAfter n = REWARD0 / 2 ^ (n / HALVING_INTERVAL) := by
  induction n with
  | zero => simp [rewardAfter]
  | succ n ih =>
    simp only [rewardAfter]
    by_cases h : (n + 1) % HALVING_INTERVAL = 0
    · rw [if_pos h, ih]
      have hdvd : HALVING_INTERVAL ∣ (n + 1) := by
        simp only [HALVING_INTERVAL] at h ⊢; omega
      rw [Nat.succ_div, if_pos hdvd, div_div, ← pow_succ]
    · rw [if_neg h, ih]
      have hdvd : ¬HALVING_INTERVAL ∣ (n + 1) := by
        simp only [HALVING_INTERVAL] at h ⊢; omega
      rw [Nat.succ_div, if_neg hdvd, Nat.add_zero]

/-- Claim C4: with initial reward 50 and `HALVING_INTERVAL = 210000`,
each of the first 210000 appended blocks is credited reward 50, the
210001st is credited 25, and in general the `k`-th appended block is
credited `50 / 2^((k-1) / 210000)` — the reward is halved exactly once
each time the chain length reaches a multiple of the interval, never
partially and never more than once per interval. -/
theorem claim_C4 :
    (∀ k, 1 ≤ k → k ≤ HALVING_INTERVAL → creditedReward k = 50)
  ∧ creditedReward (HALVING_INTERVAL + 1) = 25
  ∧ (∀ k, creditedReward (k + 1) = REWARD0 / 2 ^ (k / HALVING_INTERVAL)) := by
  refine ⟨?_, ?_, ?_⟩
  · intro k h1 h2
    rw [creditedReward, rewardAfter_closed]
    have hk : (k - 1) / HALVING_INTERVAL = 0 :=
      Nat.div_eq_of_lt (by simp only [HALVING_INTERVAL] at h2 ⊢; omega)
    rw [hk]
    norm_num [REWARD0]
  · rw [creditedReward, rewardAfter_closed]
    have hk : (HALVING_INTERVAL + 1 - 1) / HALVING_INTERVAL = 1 := by
      simp only [HALVING_INTERVAL]
    rw [hk]
    norm_num [REWARD0]
  · intro k
    rw [creditedReward, Nat.add_sub_cancel, rewardAfter_closed]

theorem claim_C4_witness : creditedReward 1 = 50 :=
  claim_C4.1 1 (by decide) (by decide)

/-- Claim C9: `retarget_difficulty` is a pure read of the chain (it is a
function of the chain value alone); whenever the chain length is nonzero
and a multiple of the batch size 10 it recommends increase (`1`) when the
mean mining time of the last 10 blocks is below `TARGET_TIME`, decrease
(`-1`) when above, unchanged (`0`) when equal; away from batch boundaries
it recommends unchanged. -/
theorem claim_C9 (chain : List MinedBlock) :
    (chain.length ≠ 0 → chain.length % 10 = 0 →
      (recentAvg chain < TARGET_TIME → retarget_difficulty chain = 1) ∧
      (TARGET_TIME < recentAvg chain → retarget_difficulty chain = -1) ∧
      (recentAvg chain = TARGET_TIME → retarget_difficulty chain = 0))
  ∧ (¬(chain.length ≠ 0 ∧ chain.length % 10 = 0) →
      retarget_difficulty chain = 0) := by
  constructor
  · intro h0 h10
    have hcond : 1 < chain.length ∧ chain.length % 10 = 0 := ⟨by omega, h10⟩
    refine ⟨?_, ?_, ?_⟩
    · intro hlt
      rw [retarget_difficulty, if_pos hcond, if_pos hlt]
    · intro hgt
      rw [retarget_difficulty, if_pos hcond, if_neg (lt_asymm hgt),
        if_pos hgt]
    · intro heq
      rw [retarget_difficulty, if_pos hcond,
        if_neg (by rw [heq]; exact lt_irrefl _),
        if_neg (by rw [heq]; exact lt_irrefl _)]
  · intro hnot
    have hcond : ¬(1 < chain.length ∧ chain.length % 10 = 0) := by
      intro hc
      exact hnot ⟨by omega, hc.2⟩
    rw [retarget_difficulty, if_neg hcond]

theorem claim_C9_witness :
    retarget_difficulty
      (List.replicate 10 (MinedBlock.mk 1 "t" "p" 0 "h" 1 50)) = 1 :=
  ((claim_C9 _).1 (by decide) (by decide)).1 (by
    norm_num [recentAvg, lastN, TARGET_TIME, List.replicate_succ,
      List.sum_cons])

theorem getVal_minedDict_nonce (sha : String → String) (block : Dict)
    (n : Nat) :
    getVal (minedDict sha block n) "nonce" = some (.nat n) := by
  rw [minedDict, getVal_setKey_ne _ _ _ _ (by decide), getVal_setKey_self]

/-- Claim C5: each worker scans its sub-range in increasing nonce order
and a returned block carries the smallest accepted nonce of the range (all
smaller nonces of the range were rejected); `mine` returns the result of
the lowest-indexed worker that found a nonce (all lower-indexed workers
returned `None`), and returns `None` exactly when every worker found
nothing. -/
theorem claim_C5 (sha : String → String) (hexVal : String → Nat)
    (block : Dict) (difficulty w : Nat) :
    (∀ lo hi target bout, lo ≤ hi →
      mine_nonce sha hexVal block lo hi target = some bout →
      ∃ n, lo ≤ n ∧ n < hi ∧
        acceptedAt sha hexVal target block n = true ∧
        (∀ m, lo ≤ m → m < n →
          acceptedAt sha hexVal target block m = false) ∧
        bout = minedDict sha block n ∧
        getVal bout "nonce" = some (.nat n))
  ∧ (mine sha hexVal block difficulty w = none ↔
      ∀ r ∈ workerResults sha hexVal block difficulty w, r = none)
  ∧ (∀ bout, mine sha hexVal block difficulty w = some bout →
      ∃ i, (workerResults sha hexVal block difficulty w).get? i =
          some (some bout) ∧
        ∀ j, j < i →
          (workerResults sha hexVal block difficulty w).get? j =
            some none) := by
  refine ⟨?_, ?_, ?_⟩
  · intro lo hi target bout hlohi h
    obtain ⟨n, h1, h2, h3, h4, h5⟩ :=
      mine_nonce_some sha hexVal block bout lo hi target hlohi h
    exact ⟨n, h1, h2, h3, h4, h5, by rw [h5, getVal_minedDict_nonce]⟩
  · exact firstSome_eq_none_iff _
  · intro bout h
    exact firstSome_eq_some _ bout h

theorem claim_C5_witness :
    ∃ n, 0 ≤ n ∧ n < 4 ∧
      acceptedAt (fun s => s) (fun _ => 0) 1 [("a", Value.nat 7)] n =
        true ∧
      (∀ m, 0 ≤ m → m < n →
        acceptedAt (fun s => s) (fun _ => 0) 1 [("a", Value.nat 7)] m =
          false) ∧
      minedDict (fun s => s) [("a", Value.nat 7)] 0 =
        minedDict (fun s => s) [("a", Value.nat 7)] n ∧
      getVal (minedDict (fun s => s) [("a", Value.nat 7)] 0) "nonce" =
        some (.nat n) :=
  (claim_C5 (fun s => s) (fun _ => 0) [("a", Value.nat 7)] 2 1).1
    0 4 1 (minedDict (fun s => s) [("a", Value.nat 7)] 0)
    (by decide) rfl

/-- Claim C6: every block returned by `mine` has passed the target check:
its recorded `nonce` field lies in `[0, 2^32)` and the integer value of
its recorded `hash` field (the digest the hex string stands for) is
strictly below `calculate_target difficulty`; this holds for every digest
function, so no block failing the check is ever returned. -/
theorem claim_C6 (sha : String → String) (hexVal : String → Nat)
    (block : Dict) (difficulty w : Nat) (bout : Dict)
    (h : mine sha hexVal block difficulty w = some bout) :
    ∃ n s, getVal bout "nonce" = some (.nat n) ∧ n < MAX_NONCE ∧
      getVal bout "hash" = some (.str s) ∧
      hexVal s < calculate_target difficulty := by
  obtain ⟨i, hi1, _⟩ := firstSome_eq_some _ bout h
  by_cases hiw : i < w
  case neg =>
    rw [workerResults_get?_none sha hexVal block difficulty w i
      (by omega)] at hi1
    exact absurd hi1 (by simp)
  rw [workerResults_get? sha hexVal block difficulty w i hiw] at hi1
  have hmn : mine_nonce sha hexVal block (i * nonce_step w)
      ((i + 1) * nonce_step w) (calculate_target difficulty) = some bout :=
    Option.some.inj hi1
  obtain ⟨n, h1, h2, h3, h4, h5⟩ :=
    mine_nonce_some sha hexVal block bout _ _ _
      (Nat.mul_le_mul_right _ (by omega)) hmn
  refine ⟨n, sha (to_string (setKey block "nonce" (.nat n))), ?_, ?_, ?_, ?_⟩
  · rw [h5, getVal_minedDict_nonce]
  · calc n < (i + 1) * nonce_step w := h2
    _ ≤ w * nonce_step w := Nat.mul_le_mul_right _ (by omega)
    _ = nonce_step w * w := Nat.mul_comm _ _
    _ ≤ MAX_NONCE := Nat.div_mul_le_self _ _
  · rw [h5, minedDict, getVal_setKey_self]
  · rw [acceptedAt] at h3
    exact of_decide_eq_true h3

theorem claim_C6_witness :
    ∃ n s,
      getVal (minedDict (fun s => s) [("b", Value.nat 2)] 0) "nonce" =
        some (.nat n) ∧
      n < MAX_NONCE ∧
      getVal (minedDict (fun s => s) [("b", Value.nat 2)] 0) "hash" =
        some (.str s) ∧
      (0 : Nat) < calculate_target 2 :=
  claim_C6 (fun s => s) (fun _ => 0) [("b", Value.nat 2)] 2 1
    (minedDict (fun s => s) [("b", Value.nat 2)] 0) rfl

theorem sortByKey_perm (d : Dict) : List.Perm (sortByKey d) d :=
  List.perm_insertionSort keyLE d

theorem sortByKey_sorted (d : Dict) : List.Sorted keyLE (sortByKey d) :=
  List.sorted_insertionSort keyLE d

theorem sorted_strict_of_nodup :
    ∀ l : Dict, List.Sorted keyLE l → (l.map Prod.fst).Nodup →
      List.Sorted keyLT l := by
  intro l
  induction l with
  | nil => intro _ _; exact List.Pairwise.nil
  | cons a rest ih =>
    intro hs hn
    rw [List.sorted_cons] at hs ⊢
    rw [List.map_cons, List.nodup_cons] at hn
    refine ⟨?_, ih hs.2 hn.2⟩
    intro b hb
    have h1 : keyLE a b := hs.1 b hb
    have h2 : a.1 ≠ b.1 := by
      intro he
      apply hn.1
      rw [he]
      exact List.mem_map_of_mem Prod.fst hb
    exact lt_of_le_of_ne h1 h2

/-- Claim C8: serialize-then-hash is a pure, deterministic two-run
property — identical inputs give identical digests — and the canonical
serialization `to_string` is independent of the insertion order of the
dict's entries: any two dicts holding the same entries in different
orders (with distinct keys, as Python dict keys always are) serialize to
the same bytes. -/
theorem claim_C8 (sha : String → String) :
    (∀ d n, sha (to_string (setKey d "nonce" (.nat n))) =
      sha (to_string (setKey d "nonce" (.nat n))))
  ∧ (∀ d1 d2 : Dict, d1.Perm d2 → (d1.map Prod.fst).Nodup →
      to_string d1 = to_string d2) := by
  constructor
  · intro d n; rfl
  · intro d1 d2 hperm hnodup
    have hn1 : ((sortByKey d1).map Prod.fst).Nodup :=
      (((sortByKey_perm d1).map Prod.fst).nodup_iff).2 hnodup
    have hn2 : ((sortByKey d2).map Prod.fst).Nodup :=
      (((sortByKey_perm d2).map Prod.fst).nodup_iff).2
        (((hperm.map Prod.fst).nodup_iff).1 hnodup)
    have h12 : sortByKey d1 = sortByKey d2 :=
      List.eq_of_perm_of_sorted
        ((sortByKey_perm d1).trans (hperm.trans (sortByKey_perm d2).symm))
        (sorted_strict_of_nodup _ (sortByKey_sorted d1) hn1)
        (sorted_strict_of_nodup _ (sortByKey_sorted d2) hn2)
    rw [to_string, to_string, h12]

theorem claim_C8_witness :
    to_string [("b", Value.nat 1), ("a", Value.str "x")] =
      to_string [("a", Value.str "x"), ("b", Value.nat 1)] :=
  (claim_C8 (fun s => s)).2 _ _ (by decide) (by decide)

theorem readH_writeH_ne (h : Heap) (r r' : Nat) (d : Dict) (hne : r' ≠ r) :
    readH (writeH h r d) r' = readH h r' := by
  rw [readH, writeH, readH, List.getD_eq_getD_get?, List.getD_eq_getD_get?,
    List.get?_set_ne _ _ (fun he => hne he.symm)]

theorem length_writeH (h : Heap) (r : Nat) (d : Dict) :
    (writeH h r d).length = h.length := List.length_set h r d

theorem readH_append (h : Heap) (d : Dict) (r : Nat) (hr : r < h.length) :
    readH (h ++ [d]) r = readH h r := by
  rw [readH, readH, List.getD_append _ _ _ _ hr]

theorem scanGoH_frame (sha : String → String) (hexVal : String → Nat)
    (target : Nat) :
    ∀ (fuel lo : Nat) (h : Heap) (r r' : Nat), r' ≠ r →
      readH (scanGoH sha hexVal target h r lo fuel).1 r' = readH h r' := by
  intro fuel
  induction fuel with
  | zero => intro lo h r r' _; rfl
  | succ f ih =>
    intro lo h r r' hne
    simp only [scanGoH]
    by_cases hc :
        hexVal (sha (to_string (readH
          (writeH h r (setKey (readH h r) "nonce" (.nat lo))) r))) <
          target
    · rw [if_pos hc]
      rw [readH_writeH_ne _ _ _ _ hne, readH_writeH_ne _ _ _ _ hne]
    · rw [if_neg hc]
      rw [ih _ _ _ _ hne, readH_writeH_ne _ _ _ _ hne]

theorem scanGoH_length (sha : String → String) (hexVal : String → Nat)
    (target : Nat) :
    ∀ (fuel lo : Nat) (h : Heap) (r : Nat),
      (scanGoH sha hexVal target h r lo fuel).1.length = h.length := by
  intro fuel
  induction fuel with
  | zero => intro lo h r; rfl
  | succ f ih =>
    intro lo h r
    simp only [scanGoH]
    by_cases hc :
        hexVal (sha (to_string (readH
          (writeH h r (setKey (readH h r) "nonce" (.nat lo))) r))) <
          target
    · rw [if_pos hc]
      rw [length_writeH, length_writeH]
    · rw [if_neg hc]
      rw [ih, length_writeH]

theorem runWorkersH_frame (sha : String → String) (hexVal : String → Nat)
    (target step blockRef : Nat) :
    ∀ (is : List Nat) (h : Heap), blockRef < h.length →
      readH (runWorkersH sha hexVal target step blockRef is h).1 blockRef =
        readH h blockRef := by
  intro is
  induction is with
  | nil => intro h _; rfl
  | cons i rest ih =>
    intro h hlt
    simp only [runWorkersH]
    have hlen1 : (h ++ [readH h blockRef]).length = h.length + 1 := by
      simp
    have hlen2 :
        (scanGoH sha hexVal target (h ++ [readH h blockRef]) h.length
          (i * step) ((i + 1) * step - i * step)).1.length =
          h.length + 1 := by
      rw [scanGoH_length, hlen1]
    rw [ih _ (by omega)]
    rw [scanGoH_frame _ _ _ _ _ _ _ _ (by omega)]
    exact readH_append h _ blockRef hlt

/-- Claim C10: the caller's template dict is unchanged when `mine`
returns: each worker operates on its own freshly allocated copy of the
dict (`block_data.copy()`), so the trial `nonce` and `hash` writes land in
the per-worker cells and never in the caller's cell — under the explicit
heap model of dict mutation, the caller's cell holds the same dict before
and after the whole mining run, for any difficulty, worker count and
digest function. -/
theorem claim_C10 (sha : String → String) (hexVal : String → Nat)
    (h : Heap) (blockRef difficulty w : Nat) (href : blockRef < h.length) :
    readH (mineH sha hexVal h blockRef difficulty w).1 blockRef =
      readH h blockRef :=
  runWorkersH_frame sha hexVal (calculate_target difficulty) (nonce_step w)
    blockRef (List.range w) h href

theorem claim_C10_witness :
    readH (mineH (fun s => s) (fun _ => 0)
      [[("a", Value.nat 1)]] 0 2 1).1 0 = readH [[("a", Value.nat 1)]] 0 :=
  claim_C10 (fun s => s) (fun _ => 0) [[("a", Value.nat 1)]] 0 2 1
    (by decide)


